/-
Verification of the Connect-4 implementation (src/main.py) against its
natural-language specification.

The Python source is shallowly embedded: each method of `Board` and
`BoardTreeNode` becomes a Lean function over an explicit state value.
Python lists are Lean `List`s; Python's indexing (including its negative
wrap-around and the IndexError caught by `get_piece_at`) is modelled by
`pyIdx`; Python floats are modelled as exact rationals `ℚ`; Python ints
are `ℤ` where the source can see negative values and `ℕ` where it cannot.
A separate heap-based model (`HBoard`) makes the list aliasing of
`Board.copy` explicit for the structural-independence property.
-/
import Mathlib

set_option linter.unusedVariables false

/-- The two piece markers. The Python source stores the strings held in
`self.p1`/`self.p2`; since every board uses the same two fixed strings we
model them as a two-element type. -/
inductive Player : Type where
  | p1 : Player
  | p2 : Player
deriving DecidableEq, Repr, BEq

/-- Python list indexing as used by `Board.get_piece_at`: an index `i` with
`-len ≤ i < 0` wraps around to `len + i`; an index outside `[-len, len)`
raises IndexError, which the caller catches, so it is modelled as `none`. -/
def pyIdx {α : Type} (l : List α) (i : ℤ) : Option α :=
  let j : ℤ := if i < 0 then i + l.length else i
  if 0 ≤ j ∧ j < (l.length : ℤ) then l.get? j.toNat else none

/-- State of the Python `Board` object: `board` is the list of columns
(each column bottom-to-top), mirroring `self.board`; `history`, `width`,
`height`, `win_length` and `turn` mirror the attributes of the same name. -/
structure Board : Type where
  board : List (List Player)
  history : String
  width : Nat
  height : Nat
  win_length : Nat
  turn : Player
deriving DecidableEq, Repr

/-- `Board.__init__`: `width` empty columns, empty history, turn = p1. -/
def Board.init (win_length : Nat) (width : Nat) (height : Nat) : Board :=
  { board := List.replicate width []
    history := ""
    width := width
    height := height
    win_length := win_length
    turn := Player.p1 }

/-- `Board.change_turn`. -/
def Board.change_turn (b : Board) : Board :=
  { b with turn := if b.turn = Player.p1 then Player.p2 else Player.p1 }

/-- `Board.copy_board_list`: builds a fresh 2d list with the same elements. -/
def Board.copy_board_list (b : Board) : List (List Player) :=
  b.board.map (fun col => col.map (fun v => v))

/-- `Board.copy`: constructs a fresh board (`Board.__init__`, so `turn`
starts back at p1), then carries over `history` and the column contents. -/
def Board.copy (b : Board) : Board :=
  let new_board := Board.init b.win_length b.width b.height
  { new_board with history := b.history, board := b.copy_board_list }

/-- `Board.in_board`: bounds check, short-circuiting like Python `and` so the
column is only read when `0 <= pos < width`. -/
def Board.in_board (b : Board) (pos : ℤ) : Bool :=
  decide (0 ≤ pos ∧ pos < (b.width : ℤ)) &&
    decide ((b.board.getD pos.toNat []).length < b.height)

/-- `Board.insert_piece`: returns the success flag together with the
post-call board state (Python mutates `self`). -/
def Board.insert_piece (b : Board) (pos : ℤ) : Bool × Board :=
  if b.in_board pos then
    (true,
     Board.change_turn
       { b with
         board := b.board.set pos.toNat ((b.board.getD pos.toNat []) ++ [b.turn])
         history := b.history ++ toString pos })
  else
    (false, b)

/-- `Board.get_column_height`: `len(self.board[pos])`. All call sites in the
source pass a column index in `[0, width)`. -/
def Board.get_column_height (b : Board) (pos : Nat) : Nat :=
  (b.board.getD pos []).length

/-- `Board.get_piece_at`: `self.board[pos][vert]` inside try/except, hence
Python indexing (negative wrap-around) with `none` for IndexError. -/
def Board.get_piece_at (b : Board) (pos : ℤ) (vert : ℤ) : Option Player :=
  (pyIdx b.board pos).bind (fun col => pyIdx col vert)

/-- `Board.get_top_piece`. -/
def Board.get_top_piece (b : Board) (pos : Nat) : Option Player :=
  b.get_piece_at pos ((b.get_column_height pos : ℤ) - 1)

/-- `Board.check_win_vertical`: the top `win_length` pieces of the column
must be identical (compared through Python's negative indices). -/
def Board.check_win_vertical (b : Board) (pos : Nat) : Bool :=
  let col := b.board.getD pos []
  if col.length < b.win_length then
    false
  else
    (List.range (b.win_length - 1)).all
      (fun i => pyIdx col (-((i : ℤ) + 2)) == pyIdx col (-1))

/-- Python `range(lo, hi)` over integers. -/
def intRange (lo : ℤ) (hi : ℤ) : List ℤ :=
  (List.range (hi - lo).toNat).map (fun i => lo + (i : ℤ))

/-- The running-counter loop shared by the horizontal scan: the counter
resets on a mismatch and the scan reports a win as soon as it equals
`win_length` (checked after each update, as in the source). -/
def scanRun (wl : Nat) (target : Option Player) : List (Option Player) → Nat → Bool
  | [], _ => false
  | c :: rest, matching =>
    let m2 := if c == target then matching + 1 else 0
    if m2 = wl then true else scanRun wl target rest m2

/-- `Board.check_win_horizontal`. Note the source computes the left bound as
`min(0, pos - win_length)`, so the scan can start at negative x. -/
def Board.check_win_horizontal (b : Board) (pos : Nat) : Bool :=
  let y : ℤ := (b.get_column_height pos : ℤ) - 1
  let match_piece := b.get_top_piece pos
  if y < 0 ∨ match_piece = none then
    false
  else
    let leftmost_win : ℤ := min 0 ((pos : ℤ) - (b.win_length : ℤ))
    let rightmost_win : ℤ := min ((pos : ℤ) + (b.win_length : ℤ)) ((b.width : ℤ) - 1)
    scanRun b.win_length match_piece
      ((intRange leftmost_win (rightmost_win + 1)).map (fun x => b.get_piece_at x y)) 0

/-- The two-counter loop of the diagonal scan: each list element carries the
pieces lying on the top-down and down-top diagonals at that x. -/
def scanRun2 (wl : Nat) (target : Option Player) :
    List (Option Player × Option Player) → Nat → Nat → Bool
  | [], _, _ => false
  | c :: rest, td_matching, dt_matching =>
    let td2 := if c.1 == target then td_matching + 1 else 0
    let dt2 := if c.2 == target then dt_matching + 1 else 0
    if dt2 = wl ∨ td2 = wl then true else scanRun2 wl target rest td2 dt2

/-- `Board.check_win_diagonals`: same window as the horizontal scan, with row
offsets `y + (pos - x)` (top-down) and `y + (x - pos)` (down-top). -/
def Board.check_win_diagonals (b : Board) (pos : Nat) : Bool :=
  let y : ℤ := (b.get_column_height pos : ℤ) - 1
  let match_piece := b.get_top_piece pos
  if y < 0 ∨ match_piece = none then
    false
  else
    let leftmost_win : ℤ := min 0 ((pos : ℤ) - (b.win_length : ℤ))
    let rightmost_win : ℤ := min ((pos : ℤ) + (b.win_length : ℤ)) ((b.width : ℤ) - 1)
    scanRun2 b.win_length match_piece
      ((intRange leftmost_win (rightmost_win + 1)).map
        (fun x => (b.get_piece_at x (y + ((pos : ℤ) - x)),
                   b.get_piece_at x (y + (x - (pos : ℤ)))))) 0 0

/-- `Board.check_win`. -/
def Board.check_win (b : Board) (pos : Nat) : Bool :=
  b.check_win_vertical pos || b.check_win_horizontal pos || b.check_win_diagonals pos

/-- `Board.is_full`. -/
def Board.is_full (b : Board) : Bool :=
  b.board.all (fun col => col.length == b.height)

/-- State of a Python `BoardTreeNode`: board snapshot, score (a float in the
source, modelled as an exact rational), list of children, the damping
attribute `up_ratio`, and the `final`/`legal` flags. -/
inductive BoardTreeNode : Type where
  | mk (board : Board) (score : ℚ) (children : List BoardTreeNode)
      (up_ratio : ℚ) (final : Bool) (legal : Bool) : BoardTreeNode

/-- The `board` attribute. -/
def BoardTreeNode.board : BoardTreeNode → Board
  | .mk b _ _ _ _ _ => b

/-- The `score` attribute. -/
def BoardTreeNode.score : BoardTreeNode → ℚ
  | .mk _ s _ _ _ _ => s

/-- The `children` attribute. -/
def BoardTreeNode.children : BoardTreeNode → List BoardTreeNode
  | .mk _ _ cs _ _ _ => cs

/-- The `up_ratio` attribute. -/
def BoardTreeNode.up_ratio : BoardTreeNode → ℚ
  | .mk _ _ _ r _ _ => r

/-- The `final` attribute. -/
def BoardTreeNode.final : BoardTreeNode → Bool
  | .mk _ _ _ _ f _ => f

/-- The `legal` attribute. -/
def BoardTreeNode.legal : BoardTreeNode → Bool
  | .mk _ _ _ _ _ l => l

/-- `BoardTreeNode.__init__`: score 0, no children, `up_ratio = 1/6`,
`final = False`, `legal = True`. -/
def BoardTreeNode.new (b : Board) : BoardTreeNode :=
  .mk b 0 [] (1 / 6 : ℚ) false true

/-- Assignment `self.score = s` (every other attribute untouched). -/
def BoardTreeNode.setScore (n : BoardTreeNode) (s : ℚ) : BoardTreeNode :=
  .mk n.board s n.children n.up_ratio n.final n.legal

/-- `BoardTreeNode.is_populated`. -/
def BoardTreeNode.is_populated (n : BoardTreeNode) : Bool :=
  decide (0 < n.children.length)

/-- The loop body of `populate`'s expansion: a fresh node on a copy of the
parent board, the attempted insertion at `pos`, and the classification of
the outcome (illegal / win / full / ordinary move). -/
def BoardTreeNode.child_for (b : Board) (pos : Nat) : BoardTreeNode :=
  let res := (Board.copy b).insert_piece (pos : ℤ)
  if res.1 = false then .mk res.2 0 [] (1 / 6 : ℚ) true false
  else if res.2.check_win pos then .mk res.2 1 [] (1 / 6 : ℚ) true true
  else if res.2.is_full then .mk res.2 0 [] (1 / 6 : ℚ) true true
  else .mk res.2 0 [] (1 / 6 : ℚ) false true

/-- The state of the node right before `populate`'s scoring loop: an already
populated node has its score reset to 0 and keeps its children; an
unpopulated node keeps its score and gains one child per column. -/
def BoardTreeNode.expand_base (n : BoardTreeNode) : BoardTreeNode :=
  if n.is_populated then n.setScore 0
  else
    .mk n.board n.score
      ((List.range n.board.width).map (fun pos => BoardTreeNode.child_for n.board pos))
      n.up_ratio n.final n.legal

/-- `BoardTreeNode.populate`, with the depth argument as a natural number:
the Python parameter is an int tested only through `depth <= 0`, so its
behaviour factors through `max(depth, 0)` (see `populateInt`). The scoring
loop re-populates every non-final child at `depth - 1` and folds
`child.score * self.up_ratio * -1` into `self.score`. -/
def BoardTreeNode.populate : Nat → BoardTreeNode → BoardTreeNode
  | 0, n => n.setScore 0
  | depth + 1, n =>
    if n.legal = false then n.setScore 0
    else
      let cs := n.expand_base.children.map
        (fun c => if c.final then c else BoardTreeNode.populate depth c)
      BoardTreeNode.mk n.board
        (cs.foldl (fun acc c => acc + c.score * n.up_ratio * (-1 : ℚ)) n.expand_base.score)
        cs n.up_ratio n.final n.legal

/-- `BoardTreeNode.populate` with the int-typed depth of the source. -/
def BoardTreeNode.populateInt (depth : ℤ) (n : BoardTreeNode) : BoardTreeNode :=
  BoardTreeNode.populate depth.toNat n

/-- The loop of `get_best_pos`: tracks the best score and position seen so
far, replacing them when a legal child strictly improves the best score
(so ties keep the earliest position). -/
def BoardTreeNode.gbp_loop :
    List BoardTreeNode → Nat → Option ℚ → Option Nat → Option Nat
  | [], _, _, best_pos => best_pos
  | c :: rest, pos, best_score, best_pos =>
    if c.legal && (match best_score with
                   | none => true
                   | some s => decide (s < c.score)) then
      BoardTreeNode.gbp_loop rest (pos + 1) (some c.score) (some pos)
    else
      BoardTreeNode.gbp_loop rest (pos + 1) best_score best_pos

/-- `BoardTreeNode.get_best_pos` (the `print` in the loop is I/O only). -/
def BoardTreeNode.get_best_pos (n : BoardTreeNode) : Nat :=
  (BoardTreeNode.gbp_loop n.children 0 none none).getD 0

/-- Heap of Python list objects, for the aliasing model of `Board.copy`:
an address is an index into the heap, a cell is one column list. -/
abbrev Heap : Type := List (List Player)

/-- Length of a heap. -/
def Heap.size (σ : Heap) : Nat := List.length σ

/-- Contents of the cell at address `a`. -/
def Heap.read (σ : Heap) (a : Nat) : List Player := List.getD σ a []

/-- Replace the contents of the cell at address `a`. -/
def Heap.write (σ : Heap) (a : Nat) (v : List Player) : Heap := List.set σ a v

/-- Heap-level view of a `Board`: `cols` holds one address per column, every
other attribute is an immutable value exactly as in `Board`. -/
structure HBoard : Type where
  cols : List Nat
  history : String
  width : Nat
  height : Nat
  win_length : Nat
  turn : Player
deriving DecidableEq, Repr

/-- `Board.__init__` in the heap model: allocates `width` fresh empty
column cells at the end of the heap. -/
def hInit (win_length : Nat) (width : Nat) (height : Nat) (σ : Heap) : HBoard × Heap :=
  (⟨(List.range width).map (fun i => σ.size + i), "", width, height, win_length, Player.p1⟩,
   σ ++ List.replicate width [])

/-- `Board.copy_board_list` in the heap model: allocates one fresh cell per
column, holding an element-by-element copy of that column's contents. -/
def hCopy_board_list (b : HBoard) (σ : Heap) : List Nat × Heap :=
  ((List.range b.cols.length).map (fun i => σ.size + i),
   σ ++ b.cols.map (fun a => (σ.read a).map (fun v => v)))

/-- `Board.copy` in the heap model: a fresh board whose column addresses are
then replaced by the addresses allocated by `copy_board_list`. -/
def hCopy (b : HBoard) (σ : Heap) : HBoard × Heap :=
  let r1 := hInit b.win_length b.width b.height σ
  let r2 := hCopy_board_list b r1.2
  ({ r1.1 with history := b.history, cols := r2.1 }, r2.2)

/-- `Board.in_board` in the heap model. -/
def hIn_board (b : HBoard) (pos : ℤ) (σ : Heap) : Bool :=
  decide (0 ≤ pos ∧ pos < (b.width : ℤ)) &&
    decide ((σ.read (b.cols.getD pos.toNat 0)).length < b.height)

/-- `Board.insert_piece` in the heap model: on success the referenced column
cell is mutated in place, which is visible through every alias of that
cell. -/
def hInsert_piece (b : HBoard) (pos : ℤ) (σ : Heap) : Bool × HBoard × Heap :=
  if hIn_board b pos σ then
    let a := b.cols.getD pos.toNat 0
    (true,
     { b with
       history := b.history ++ toString pos
       turn := if b.turn = Player.p1 then Player.p2 else Player.p1 },
     σ.write a (σ.read a ++ [b.turn]))
  else
    (false, b, σ)

/-- The column contents a board observes through its addresses. -/
def hColumns (b : HBoard) (σ : Heap) : List (List Player) :=
  b.cols.map (fun a => σ.read a)

/-- Spec-level cell lookup: a cell strictly inside the board (no index
wrap-around), bottom-to-top. -/
def spec_cell (b : Board) (x : ℤ) (y : ℤ) : Option Player :=
  if 0 ≤ x ∧ x < (b.width : ℤ) ∧ 0 ≤ y then (b.board.getD x.toNat []).get? y.toNat
  else none

/-- Modelled from the spec: the just-placed piece (the top of column `pos`)
completes a run of `win_length` identical markers along the vertical,
horizontal, or one of the two diagonal axes through its position. Used as
the comparison point for `check_win`. -/
def spec_completes_run (b : Board) (pos : Nat) : Bool :=
  match b.get_top_piece pos with
  | none => false
  | some p =>
    let y : ℤ := (b.get_column_height pos : ℤ) - 1
    ([((0 : ℤ), (1 : ℤ)), (1, 0), (1, 1), (1, -1)]).any (fun d =>
      (List.range b.win_length).any (fun k =>
        (List.range b.win_length).all (fun j =>
          spec_cell b ((pos : ℤ) + ((j : ℤ) - (k : ℤ)) * d.1)
            (y + ((j : ℤ) - (k : ℤ)) * d.2) == some p)))

/-- A sequence of `insert_piece` calls, for building concrete positions. -/
def seq_insert (b : Board) (ps : List ℤ) : Board :=
  ps.foldl (fun bb p => (bb.insert_piece p).2) b

/-- Position reached by the legal game p1:5, p2:2, p1:6, p2:2, p1:0, p2:2. -/
def c1_base : Board := seq_insert (Board.init 4 7 6) [5, 2, 6, 2, 0, 2]

/-- `c1_base` after p1 places in column 1 (row 0). -/
def c1_board : Board := (c1_base.insert_piece 1).2

/-- A default board after a single placement in the last column. -/
def c9_board : Board := ((Board.init 4 7 6).insert_piece 6).2

/-- The board of the C10 scenario: placements 0,0,0,1,1,1 by alternating
players on a default board. -/
def c10_base : Board := seq_insert (Board.init 4 7 6) [0, 0, 0, 1, 1, 1]

/-- A default board after one placement, so that it is p2's turn. -/
def c8_board : Board := ((Board.init 4 7 6).insert_piece 3).2

/-- A terminal (won, legal) node: on a width-2, height-1, win-length-1
board, the very first placement wins. -/
def c5_node : BoardTreeNode := BoardTreeNode.child_for (Board.init 1 2 1) 0

/-- A fresh root node on a tiny board. -/
def c3_node : BoardTreeNode := BoardTreeNode.new (Board.init 1 2 1)

/-- A fresh root node on a small board. -/
def c4_node : BoardTreeNode := BoardTreeNode.new (Board.init 2 2 2)

/-- A node with three children: an illegal high-scoring one and two legal
ones tied at the maximal score. -/
def c6_node : BoardTreeNode :=
  BoardTreeNode.mk (Board.init 4 7 6) 0
    [BoardTreeNode.mk (Board.init 4 7 6) 5 [] (1 / 6 : ℚ) false false,
     BoardTreeNode.mk (Board.init 4 7 6) 2 [] (1 / 6 : ℚ) false true,
     BoardTreeNode.mk (Board.init 4 7 6) 2 [] (1 / 6 : ℚ) false true]
    (1 / 6 : ℚ) false true

/-- A node with zero children. -/
def c6_empty : BoardTreeNode := BoardTreeNode.new (Board.init 4 7 6)

/-- A heap-model board freshly allocated in the empty heap. -/
def c7_hboard : HBoard := (hInit 4 7 6 []).1

/-- The heap holding `c7_hboard`'s columns. -/
def c7_heap : Heap := (hInit 4 7 6 []).2

theorem BoardTreeNode.board_mk (b : Board) (s : ℚ) (cs : List BoardTreeNode)
    (r : ℚ) (f : Bool) (l : Bool) : (BoardTreeNode.mk b s cs r f l).board = b := rfl

theorem BoardTreeNode.score_mk (b : Board) (s : ℚ) (cs : List BoardTreeNode)
    (r : ℚ) (f : Bool) (l : Bool) : (BoardTreeNode.mk b s cs r f l).score = s := rfl

theorem BoardTreeNode.children_mk (b : Board) (s : ℚ) (cs : List BoardTreeNode)
    (r : ℚ) (f : Bool) (l : Bool) : (BoardTreeNode.mk b s cs r f l).children = cs := rfl

theorem BoardTreeNode.up_ratio_mk (b : Board) (s : ℚ) (cs : List BoardTreeNode)
    (r : ℚ) (f : Bool) (l : Bool) : (BoardTreeNode.mk b s cs r f l).up_ratio = r := rfl

theorem BoardTreeNode.final_mk (b : Board) (s : ℚ) (cs : List BoardTreeNode)
    (r : ℚ) (f : Bool) (l : Bool) : (BoardTreeNode.mk b s cs r f l).final = f := rfl

theorem BoardTreeNode.legal_mk (b : Board) (s : ℚ) (cs : List BoardTreeNode)
    (r : ℚ) (f : Bool) (l : Bool) : (BoardTreeNode.mk b s cs r f l).legal = l := rfl

attribute [simp] BoardTreeNode.board_mk BoardTreeNode.score_mk BoardTreeNode.children_mk
  BoardTreeNode.up_ratio_mk BoardTreeNode.final_mk BoardTreeNode.legal_mk

/-- Unfolding of `in_board` into its three conditions. -/
theorem Board.in_board_iff (b : Board) (pos : ℤ) :
    b.in_board pos = true
      ↔ (0 ≤ pos ∧ pos < (b.width : ℤ) ∧ (b.board.getD pos.toNat []).length < b.height) := by
  simp [Board.in_board, and_assoc]

/-- Python indexing returns `none` outside the wrapped index range. -/
theorem pyIdx_none {α : Type} (l : List α) (i : ℤ)
    (h : i < -(l.length : ℤ) ∨ (l.length : ℤ) ≤ i) : pyIdx l i = none := by
  unfold pyIdx
  have hc : ¬(0 ≤ (if i < 0 then i + (l.length : ℤ) else i)
      ∧ (if i < 0 then i + (l.length : ℤ) else i) < (l.length : ℤ)) := by
    split <;> omega
  simp only [hc, if_false]

/-- C8: for every board `b`, `b.copy()` has `turn` equal to the player-one
marker regardless of `b`'s turn — copy duplicates columns, history and the
dimensions but not the `turn` attribute — so a copy taken on player-two's
turn disagrees with the original about whose turn it is, and a successful
placement on the copy appends player-one's marker. -/
theorem copy_resets_turn (b : Board) :
    b.copy.turn = Player.p1
    ∧ b.copy.board = b.board
    ∧ b.copy.history = b.history
    ∧ b.copy.width = b.width
    ∧ b.copy.height = b.height
    ∧ b.copy.win_length = b.win_length
    ∧ (b.turn = Player.p2 → b.copy.turn ≠ b.turn)
    ∧ (∀ pos : ℤ, (b.copy.insert_piece pos).1 = true →
        (b.copy.insert_piece pos).2.board
          = b.board.set pos.toNat ((b.board.getD pos.toNat []) ++ [Player.p1])) := by
  have hboard : b.copy.board = b.board := by
    simp [Board.copy, Board.copy_board_list, Board.init, List.map_id']
  have hturn : b.copy.turn = Player.p1 := rfl
  refine ⟨hturn, hboard, rfl, rfl, rfl, rfl, ?_, ?_⟩
  · intro h2
    rw [hturn, h2]
    intro hcontra
    exact Player.noConfusion hcontra
  · intro pos hsucc
    by_cases hin : b.copy.in_board pos
    · simp only [Board.insert_piece, hin, if_true, Board.change_turn]
      rw [hboard, hturn]
    · simp only [Board.insert_piece, hin, if_false] at hsucc
      exact absurd hsucc (by simp)

/-- Witness for C8 at a concrete board on which it is player-two's turn. -/
theorem copy_resets_turn_witness :
    c8_board.turn = Player.p2 ∧ c8_board.copy.turn ≠ c8_board.turn :=
  ⟨by decide, (copy_resets_turn c8_board).2.2.2.2.2.2.1 (by decide)⟩

/-- C10 counterexample: on the default 4/7/6 board, after placements into
columns 0,0,0,1,1,1 by the alternating players, the placement into column 2
(which lands at row 0 and succeeds) does NOT make `check_win(2)` return
true — row 0 holds alternating markers, so no run exists. -/
theorem horizontal_scenario_counterexample :
    c10_base.history = "000111"
    ∧ (c10_base.insert_piece 2).1 = true
    ∧ c10_base.get_column_height 2 = 0
    ∧ ¬((c10_base.insert_piece 2).2.check_win 2 = true) := by decide

/-- C10 amended: in the claimed scenario the placement into column 2
succeeds and lands at row 0, but `check_win(2)` returns false. -/
theorem horizontal_scenario_amended :
    (c10_base.insert_piece 2).1 = true
    ∧ c10_base.get_column_height 2 = 0
    ∧ (c10_base.insert_piece 2).2.check_win 2 = false := by decide

/-- C1: evaluation of `check_win` at a failing input. In the legal position
reached by p1:5, p2:2, p1:6, p2:2, p1:0, p2:2, p1's placement into column 1
succeeds, `check_win(1)` returns true, yet the placed piece completes no
run of 4 along any axis through its position: the horizontal scan starts at
`min(0, pos - win_length) = -3` and Python's negative indexing wraps the
window onto columns 5 and 6, counting the pieces at columns 5, 6, 0, 1 of
row 0 as four consecutive matches. -/
theorem check_win_wraparound_bug :
    (c1_base.insert_piece 1).1 = true
    ∧ c1_board.check_win 1 = true
    ∧ spec_completes_run c1_board 1 = false := by decide

/-- C9 counterexample: `(x, y) = (-1, 0)` lies outside `[0, width)`, yet on a
board holding one piece in the last column `get_piece_at(-1, 0)` returns
that piece (Python wraps the negative index), not the absent sentinel. -/
theorem get_piece_at_negative_wrap :
    c9_board.get_piece_at (-1) 0 = some Player.p1 ∧ ¬((0 : ℤ) ≤ -1) := by decide

/-- C9 amended: `get_piece_at` is total (never raises) and returns `none`
whenever an index falls outside Python's wrapped index range — `x` outside
`[-width, width)`, or `y` outside `[-len, len)` for the selected column;
indices in `[-len, 0)` wrap around and can return a piece. -/
theorem get_piece_at_amended (b : Board) (x : ℤ) (y : ℤ)
    (hw : b.board.length = b.width) :
    ((x < -(b.width : ℤ) ∨ (b.width : ℤ) ≤ x) → b.get_piece_at x y = none)
    ∧ (∀ col, pyIdx b.board x = some col →
        (y < -(col.length : ℤ) ∨ (col.length : ℤ) ≤ y) → b.get_piece_at x y = none) := by
  constructor
  · intro hx
    have hnone : pyIdx b.board x = none := by
      apply pyIdx_none
      rw [hw]
      exact hx
    simp [Board.get_piece_at, hnone]
  · intro col hcol hy
    simp [Board.get_piece_at, hcol, pyIdx_none col y hy]

/-- Witness for C9's amended theorem at concrete out-of-range indices. -/
theorem get_piece_at_amended_witness :
    (Board.init 4 7 6).get_piece_at 7 0 = none
    ∧ (Board.init 4 7 6).get_piece_at 0 5 = none :=
  ⟨(get_piece_at_amended (Board.init 4 7 6) 7 0 (by decide)).1 (by decide),
   (get_piece_at_amended (Board.init 4 7 6) 0 5 (by decide)).2 [] (by decide) (by decide)⟩

/-- C2: for a well-formed board, `insert_piece` returns false and leaves the
whole state unchanged exactly when the column is outside `[0, width)` or
already holds `height` pieces; otherwise it returns true, appends exactly
one piece bearing the current turn's marker to that column (all other
columns unchanged), records the move in the history, and flips the turn to
the other player exactly once. -/
theorem insert_piece_spec (b : Board) (pos : ℤ)
    (hw : b.board.length = b.width)
    (hh : ∀ col ∈ b.board, col.length ≤ b.height) :
    (((b.insert_piece pos).1 = false ∧ (b.insert_piece pos).2 = b)
       ↔ (pos < 0 ∨ (b.width : ℤ) ≤ pos
           ∨ (b.board.getD pos.toNat []).length = b.height))
    ∧ ((0 ≤ pos ∧ pos < (b.width : ℤ) ∧ (b.board.getD pos.toNat []).length < b.height) →
        ((b.insert_piece pos).1 = true
          ∧ (b.insert_piece pos).2.board.get? pos.toNat
              = some ((b.board.getD pos.toNat []) ++ [b.turn])
          ∧ (∀ j : Nat, j ≠ pos.toNat →
              (b.insert_piece pos).2.board.get? j = b.board.get? j)
          ∧ (b.insert_piece pos).2.history = b.history ++ toString pos
          ∧ (b.insert_piece pos).2.turn
              = (if b.turn = Player.p1 then Player.p2 else Player.p1)
          ∧ (b.insert_piece pos).2.turn ≠ b.turn
          ∧ (b.insert_piece pos).2.width = b.width
          ∧ (b.insert_piece pos).2.height = b.height
          ∧ (b.insert_piece pos).2.win_length = b.win_length)) := by
  by_cases hin : b.in_board pos = true
  · have hcond := (Board.in_board_iff b pos).mp hin
    obtain ⟨h0, h1, h2⟩ := hcond
    constructor
    · constructor
      · intro hfail
        exfalso
        have hT : (b.insert_piece pos).1 = true := by
          simp [Board.insert_piece, hin]
        rw [hT] at hfail
        exact Bool.noConfusion hfail.1
      · intro hdisj
        exfalso
        rcases hdisj with h | h | h <;> omega
    · intro _
      have hlt : pos.toNat < b.board.length := by omega
      refine ⟨by simp [Board.insert_piece, hin], ?_, ?_, ?_, ?_, ?_, ?_, ?_, ?_⟩
      · simp only [Board.insert_piece, hin, if_true, Board.change_turn]
        exact List.get?_set_eq_of_lt _ hlt
      · intro j hj
        simp only [Board.insert_piece, hin, if_true, Board.change_turn]
        exact List.get?_set_ne _ _ (fun hc => hj hc.symm)
      · simp [Board.insert_piece, hin, Board.change_turn]
      · simp [Board.insert_piece, hin, Board.change_turn]
      · simp only [Board.insert_piece, hin, if_true, Board.change_turn]
        cases hb : b.turn <;> simp [hb]
      · simp [Board.insert_piece, hin, Board.change_turn]
      · simp [Board.insert_piece, hin, Board.change_turn]
      · simp [Board.insert_piece, hin, Board.change_turn]
  · have hres : b.insert_piece pos = (false, b) := by
      simp [Board.insert_piece, hin]
    constructor
    · constructor
      · intro _
        by_cases hp0 : pos < 0
        · exact Or.inl hp0
        · by_cases hpw : (b.width : ℤ) ≤ pos
          · exact Or.inr (Or.inl hpw)
          · refine Or.inr (Or.inr ?_)
            have hcond : ¬(0 ≤ pos ∧ pos < (b.width : ℤ)
                ∧ (b.board.getD pos.toNat []).length < b.height) := by
              intro hc
              exact hin ((Board.in_board_iff b pos).mpr hc)
            have hlen : ¬((b.board.getD pos.toNat []).length < b.height) := by
              intro hc
              exact hcond ⟨by omega, by omega, hc⟩
            have hlt : pos.toNat < b.board.length := by omega
            have hmem : b.board.getD pos.toNat [] ∈ b.board := by
              rw [List.getD_eq_getElem b.board [] hlt]
              exact List.getElem_mem hlt
            have := hh _ hmem
            omega
      · intro _
        exact ⟨by rw [hres], by rw [hres]⟩
    · intro hc
      exfalso
      exact hin ((Board.in_board_iff b pos).mpr hc)

/-- Witness for C2: both a successful and a rejected placement on concrete
boards, through `insert_piece_spec`. -/
theorem insert_piece_spec_witness :
    ((Board.init 4 7 6).insert_piece 0).1 = true
    ∧ (((Board.init 4 7 6).insert_piece 9).1 = false
        ∧ ((Board.init 4 7 6).insert_piece 9).2 = Board.init 4 7 6) := by
  have hh : ∀ col ∈ (Board.init 4 7 6).board, col.length ≤ (Board.init 4 7 6).height := by
    intro col hcol
    have hcol2 := List.eq_of_mem_replicate hcol
    rw [hcol2]
    decide
  exact ⟨((insert_piece_spec (Board.init 4 7 6) 0 (by decide) hh).2
            ⟨by decide, by decide, by decide⟩).1,
         (insert_piece_spec (Board.init 4 7 6) 9 (by decide) hh).1.mpr
            (Or.inr (Or.inl (by decide)))⟩

theorem populate_zero (n : BoardTreeNode) : BoardTreeNode.populate 0 n = n.setScore 0 := rfl

theorem populate_succ_illegal (d : Nat) (n : BoardTreeNode) (h : n.legal = false) :
    BoardTreeNode.populate (d + 1) n = n.setScore 0 := by
  simp [BoardTreeNode.populate, h]

theorem populate_succ_legal (d : Nat) (n : BoardTreeNode) (h : n.legal = true) :
    BoardTreeNode.populate (d + 1) n =
      BoardTreeNode.mk n.board
        ((n.expand_base.children.map
            (fun c => if c.final then c else BoardTreeNode.populate d c)).foldl
          (fun acc c => acc + c.score * n.up_ratio * (-1 : ℚ)) n.expand_base.score)
        (n.expand_base.children.map
          (fun c => if c.final then c else BoardTreeNode.populate d c))
        n.up_ratio n.final n.legal := by
  simp [BoardTreeNode.populate, h]

theorem expand_base_unpopulated (n : BoardTreeNode) (h : n.children = []) :
    n.expand_base = BoardTreeNode.mk n.board n.score
      ((List.range n.board.width).map (fun pos => BoardTreeNode.child_for n.board pos))
      n.up_ratio n.final n.legal := by
  simp [BoardTreeNode.expand_base, BoardTreeNode.is_populated, h]

theorem expand_base_populated (n : BoardTreeNode) (h : n.children ≠ []) :
    n.expand_base = n.setScore 0 := by
  have hlen : 0 < n.children.length := List.length_pos.mpr h
  simp [BoardTreeNode.expand_base, BoardTreeNode.is_populated, hlen]

theorem foldl_add_sum (f : BoardTreeNode → ℚ) (cs : List BoardTreeNode) : ∀ a : ℚ,
    cs.foldl (fun acc c => acc + f c) a = a + (cs.map f).sum := by
  induction cs with
  | nil => intro a; simp
  | cons c rest ih =>
    intro a
    simp only [List.foldl_cons, List.map_cons, List.sum_cons, ih]
    ring

/-- `populate` writes only `score` and `children`; the other attributes of
the node are untouched. -/
theorem populate_preserves (d : Nat) (c : BoardTreeNode) :
    (BoardTreeNode.populate d c).board = c.board
    ∧ (BoardTreeNode.populate d c).final = c.final
    ∧ (BoardTreeNode.populate d c).legal = c.legal
    ∧ (BoardTreeNode.populate d c).up_ratio = c.up_ratio := by
  cases d with
  | zero => exact ⟨rfl, rfl, rfl, rfl⟩
  | succ e =>
    by_cases h : c.legal = false
    · rw [populate_succ_illegal e c h]
      exact ⟨rfl, rfl, rfl, rfl⟩
    · have h2 : c.legal = true := by
        revert h
        cases c.legal <;> simp
      rw [populate_succ_legal e c h2]
      exact ⟨rfl, rfl, rfl, rfl⟩

/-- C3: when `populate` is called with the depth budget exhausted
(`depth <= 0`) or on a node already known illegal, the score is set to 0
and no expansion occurs; otherwise, for a non-terminal node (whose score is
0 if it is still unexpanded, as holds for every node the program builds),
after the call the node's score equals the sum over all of its children —
legal and illegal alike — of the child's score times the fixed ratio
`up_ratio * -1`. -/
theorem populate_score_aggregation (depth : ℤ) (n : BoardTreeNode) :
    ((depth ≤ 0 ∨ n.legal = false) → n.populateInt depth = n.setScore 0)
    ∧ (0 < depth → n.legal = true → n.final = false → (n.children = [] → n.score = 0) →
        (n.populateInt depth).score
          = ((n.populateInt depth).children.map
              (fun c => c.score * (n.up_ratio * (-1 : ℚ)))).sum) := by
  constructor
  · intro h
    unfold BoardTreeNode.populateInt
    rcases h with h | h
    · have h0 : depth.toNat = 0 := by omega
      rw [h0, populate_zero]
    · cases hd : depth.toNat with
      | zero => rw [populate_zero]
      | succ e => exact populate_succ_illegal e n h
  · intro hd hl hf hs
    unfold BoardTreeNode.populateInt
    obtain ⟨e, he⟩ : ∃ e, depth.toNat = e + 1 := ⟨depth.toNat - 1, by omega⟩
    rw [he, populate_succ_legal e n hl]
    simp only [BoardTreeNode.score_mk, BoardTreeNode.children_mk]
    rw [foldl_add_sum]
    have hbase : n.expand_base.score = 0 := by
      by_cases hc : n.children = []
      · rw [expand_base_unpopulated n hc]
        simp [hs hc]
      · rw [expand_base_populated n hc]
        rfl
    rw [hbase, zero_add]
    have hfun : (fun c : BoardTreeNode => c.score * n.up_ratio * (-1 : ℚ))
        = fun c : BoardTreeNode => c.score * (n.up_ratio * (-1 : ℚ)) := by
      funext c
      ring
    rw [hfun]

/-- Witness for C3 on a fresh root node over a small board, at negative and
at positive depth. -/
theorem populate_score_aggregation_witness :
    c3_node.populateInt (-1) = c3_node.setScore 0
    ∧ (c3_node.populateInt 1).score
        = ((c3_node.populateInt 1).children.map
            (fun c => c.score * (c3_node.up_ratio * (-1 : ℚ)))).sum :=
  ⟨(populate_score_aggregation (-1) c3_node).1 (Or.inl (by decide)),
   (populate_score_aggregation 1 c3_node).2 (by decide) rfl rfl (fun _ => rfl)⟩

/-- Classification of the child generated for one column: board, empty child
list, and the final/legal/score outcome for each of the four cases of the
source's if/elif chain. -/
theorem child_for_spec (b : Board) (pos : Nat) :
    (BoardTreeNode.child_for b pos).board = ((Board.copy b).insert_piece (pos : ℤ)).2
    ∧ (BoardTreeNode.child_for b pos).children = []
    ∧ (BoardTreeNode.child_for b pos).up_ratio = (1 / 6 : ℚ)
    ∧ (((Board.copy b).insert_piece (pos : ℤ)).1 = false →
        (BoardTreeNode.child_for b pos).final = true
        ∧ (BoardTreeNode.child_for b pos).legal = false
        ∧ (BoardTreeNode.child_for b pos).score = 0)
    ∧ (((Board.copy b).insert_piece (pos : ℤ)).1 = true →
        ((((Board.copy b).insert_piece (pos : ℤ)).2.check_win pos = true →
            (BoardTreeNode.child_for b pos).final = true
            ∧ (BoardTreeNode.child_for b pos).legal = true
            ∧ (BoardTreeNode.child_for b pos).score = 1)
        ∧ (((Board.copy b).insert_piece (pos : ℤ)).2.check_win pos = false →
            ((Board.copy b).insert_piece (pos : ℤ)).2.is_full = true →
            (BoardTreeNode.child_for b pos).final = true
            ∧ (BoardTreeNode.child_for b pos).legal = true
            ∧ (BoardTreeNode.child_for b pos).score = 0)
        ∧ (((Board.copy b).insert_piece (pos : ℤ)).2.check_win pos = false →
            ((Board.copy b).insert_piece (pos : ℤ)).2.is_full = false →
            (BoardTreeNode.child_for b pos).final = false
            ∧ (BoardTreeNode.child_for b pos).legal = true
            ∧ (BoardTreeNode.child_for b pos).score = 0))) := by
  by_cases h1 : ((Board.copy b).insert_piece (pos : ℤ)).1 = false
  · refine ⟨?_, ?_, ?_, ?_, ?_⟩ <;>
      simp [BoardTreeNode.child_for, h1]
  · by_cases h2 : ((Board.copy b).insert_piece (pos : ℤ)).2.check_win pos = true
    · refine ⟨?_, ?_, ?_, ?_, ?_⟩ <;>
        simp [BoardTreeNode.child_for, h1, h2]
    · by_cases h3 : ((Board.copy b).insert_piece (pos : ℤ)).2.is_full = true
      · refine ⟨?_, ?_, ?_, ?_, ?_⟩ <;>
          simp [BoardTreeNode.child_for, h1, h2, h3]
      · refine ⟨?_, ?_, ?_, ?_, ?_⟩ <;>
          simp [BoardTreeNode.child_for, h1, h2, h3]

/-- C4: populate with positive depth on an unexpanded legal node creates
exactly `width` children — the child at index i being the node built from a
duplicate of the board with a placement attempted in column i, classified
as illegal / won / drawn / ordinary exactly as the source's if/elif chain
does — and a later populate call on an already-expanded node preserves the
child set (length, boards and flags), refreshing only scores. -/
theorem populate_expansion (depth : ℤ) (n : BoardTreeNode)
    (hd : 0 < depth) (hl : n.legal = true) :
    (n.children = [] →
      ((n.populateInt depth).children.length = n.board.width
      ∧ ∀ i : Nat, i < n.board.width →
          ∃ c, (n.populateInt depth).children.get? i = some c
            ∧ c.board = ((Board.copy n.board).insert_piece (i : ℤ)).2
            ∧ (((Board.copy n.board).insert_piece (i : ℤ)).1 = false →
                c.final = true ∧ c.legal = false ∧ c.score = 0 ∧ c.children = [])
            ∧ (((Board.copy n.board).insert_piece (i : ℤ)).1 = true →
                ((((Board.copy n.board).insert_piece (i : ℤ)).2.check_win i = true →
                    c.final = true ∧ c.legal = true ∧ c.score = 1)
                ∧ (((Board.copy n.board).insert_piece (i : ℤ)).2.check_win i = false →
                    ((Board.copy n.board).insert_piece (i : ℤ)).2.is_full = true →
                    c.final = true ∧ c.legal = true ∧ c.score = 0)
                ∧ (((Board.copy n.board).insert_piece (i : ℤ)).2.check_win i = false →
                    ((Board.copy n.board).insert_piece (i : ℤ)).2.is_full = false →
                    c.final = false ∧ c.legal = true)))))
    ∧ (n.children ≠ [] →
        ((n.populateInt depth).children.length = n.children.length
        ∧ ∀ i c0, n.children.get? i = some c0 →
            ∃ c, (n.populateInt depth).children.get? i = some c
              ∧ c.board = c0.board ∧ c.final = c0.final ∧ c.legal = c0.legal
              ∧ c.up_ratio = c0.up_ratio)) := by
  obtain ⟨e, he⟩ : ∃ e, depth.toNat = e + 1 := ⟨depth.toNat - 1, by omega⟩
  have hmain : n.populateInt depth
      = BoardTreeNode.populate (e + 1) n := by
    unfold BoardTreeNode.populateInt
    rw [he]
  constructor
  · intro hc
    have hch : (n.populateInt depth).children
        = (List.range n.board.width).map
            (fun pos =>
              if (BoardTreeNode.child_for n.board pos).final then
                BoardTreeNode.child_for n.board pos
              else BoardTreeNode.populate e (BoardTreeNode.child_for n.board pos)) := by
      rw [hmain, populate_succ_legal e n hl, BoardTreeNode.children_mk,
        expand_base_unpopulated n hc, BoardTreeNode.children_mk, List.map_map]
      rfl
    constructor
    · rw [hch, List.length_map, List.length_range]
    · intro i hi
      have hget : (n.populateInt depth).children.get? i
          = some (if (BoardTreeNode.child_for n.board i).final then
                BoardTreeNode.child_for n.board i
              else BoardTreeNode.populate e (BoardTreeNode.child_for n.board i)) := by
        rw [hch, List.get?_map, List.get?_range hi]
        rfl
      obtain ⟨hcb, hcc, hcr, hcf, hct⟩ := child_for_spec n.board i
      by_cases hf : (BoardTreeNode.child_for n.board i).final = true
      · refine ⟨BoardTreeNode.child_for n.board i, ?_, hcb, ?_, ?_⟩
        · rw [hget, if_pos hf]
        · intro hfail
          exact ⟨(hcf hfail).1, (hcf hfail).2.1, (hcf hfail).2.2, hcc⟩
        · intro hsucc
          refine ⟨fun hwin => (hct hsucc).1 hwin, fun hnw hfull => (hct hsucc).2.1 hnw hfull,
            fun hnw hnf => ?_⟩
          exfalso
          have hx := ((hct hsucc).2.2 hnw hnf).1
          rw [hx] at hf
          exact Bool.noConfusion hf
      · have hf2 : (BoardTreeNode.child_for n.board i).final = false := by
          revert hf
          cases (BoardTreeNode.child_for n.board i).final <;> simp
        obtain ⟨hpb, hpf, hpl, hpr⟩ :=
          populate_preserves e (BoardTreeNode.child_for n.board i)
        refine ⟨BoardTreeNode.populate e (BoardTreeNode.child_for n.board i), ?_, ?_, ?_, ?_⟩
        · rw [hget, if_neg hf]
        · rw [hpb, hcb]
        · intro hfail
          exfalso
          have := (hcf hfail).1
          rw [this] at hf2
          exact Bool.noConfusion hf2
        · intro hsucc
          refine ⟨fun hwin => ?_, fun hnw hfull => ?_, fun hnw hnf => ?_⟩
          · exfalso
            have := ((hct hsucc).1 hwin).1
            rw [this] at hf2
            exact Bool.noConfusion hf2
          · exfalso
            have := ((hct hsucc).2.1 hnw hfull).1
            rw [this] at hf2
            exact Bool.noConfusion hf2
          · exact ⟨by rw [hpf, hf2], by rw [hpl, ((hct hsucc).2.2 hnw hnf).2.1]⟩
  · intro hc
    have hch : (n.populateInt depth).children
        = n.children.map
            (fun c => if c.final then c else BoardTreeNode.populate e c) := by
      rw [hmain, populate_succ_legal e n hl, BoardTreeNode.children_mk,
        expand_base_populated n hc]
      rfl
    constructor
    · rw [hch, List.length_map]
    · intro i c0 hg
      refine ⟨if c0.final then c0 else BoardTreeNode.populate e c0, ?_, ?_⟩
      · rw [hch, List.get?_map, hg]
        rfl
      · obtain ⟨hpb, hpf, hpl, hpr⟩ := populate_preserves e c0
        by_cases hf : c0.final = true
        · rw [if_pos hf]
          exact ⟨rfl, rfl, rfl, rfl⟩
        · rw [if_neg hf]
          exact ⟨hpb, hpf, hpl, hpr⟩

/-- Witness for C4: a fresh legal root over a 2 by 2 board expands to
exactly `width` children. -/
theorem populate_expansion_witness :
    (c4_node.populateInt 1).children.length = c4_node.board.width :=
  ((populate_expansion 1 c4_node (by decide) rfl).1 rfl).1

/-- C5 counterexample: `c5_node` is terminal (its board is the result of a
winning placement on a win-length-1 board) and has no children, yet a
direct `populate` call with positive depth creates `width = 2` children for
it: `populate` guards only on `legal`, not on `final`. -/
theorem terminal_node_expands :
    c5_node.final = true
    ∧ c5_node.legal = true
    ∧ c5_node.children.length = 0
    ∧ (c5_node.populateInt 1).children.length = 2 := by decide

/-- C5 amended: nodes known illegal are absorbing — `populate` on them only
sets the score to 0 and never creates children — and the recursion of
`populate` never expands a final child of a populated node (final children
are passed over untouched); but a terminal node that is legal (won or
drawn) IS expanded by a direct `populate` call with positive depth. -/
theorem populate_absorbing_amended (depth : ℤ) (n : BoardTreeNode) :
    (n.legal = false → n.populateInt depth = n.setScore 0)
    ∧ (0 < depth → n.legal = true →
        ∀ i : Nat, ∀ c : BoardTreeNode, n.children.get? i = some c → c.final = true →
          (n.populateInt depth).children.get? i = some c) := by
  constructor
  · intro h
    unfold BoardTreeNode.populateInt
    cases hd : depth.toNat with
    | zero => rw [populate_zero]
    | succ e => exact populate_succ_illegal e n h
  · intro hd hl i c hg hf
    obtain ⟨e, he⟩ : ∃ e, depth.toNat = e + 1 := ⟨depth.toNat - 1, by omega⟩
    unfold BoardTreeNode.populateInt
    rw [he, populate_succ_legal e n hl, BoardTreeNode.children_mk]
    have hne : n.children ≠ [] := by
      intro h0
      rw [h0] at hg
      exact Option.noConfusion hg
    rw [expand_base_populated n hne]
    have hsc : (n.setScore 0).children = n.children := rfl
    rw [hsc, List.get?_map, hg]
    simp [hf]

/-- Witness for C5's amended theorem: an illegal node is left unexpanded,
and a final child of a populated node survives a populate call unchanged. -/
theorem populate_absorbing_amended_witness :
    ((BoardTreeNode.mk (Board.init 1 2 1) 0 [] (1 / 6 : ℚ) true false).populateInt 3
      = (BoardTreeNode.mk (Board.init 1 2 1) 0 [] (1 / 6 : ℚ) true false).setScore 0)
    ∧ ((BoardTreeNode.mk (Board.init 1 2 1) 0
          [BoardTreeNode.mk (Board.init 1 2 1) 1 [] (1 / 6 : ℚ) true true]
          (1 / 6 : ℚ) false true).populateInt 1).children.get? 0
        = some (BoardTreeNode.mk (Board.init 1 2 1) 1 [] (1 / 6 : ℚ) true true) :=
  ⟨(populate_absorbing_amended 3
      (BoardTreeNode.mk (Board.init 1 2 1) 0 [] (1 / 6 : ℚ) true false)).1 rfl,
   (populate_absorbing_amended 1
      (BoardTreeNode.mk (Board.init 1 2 1) 0
        [BoardTreeNode.mk (Board.init 1 2 1) 1 [] (1 / 6 : ℚ) true true]
        (1 / 6 : ℚ) false true)).2 (by decide) rfl 0
      (BoardTreeNode.mk (Board.init 1 2 1) 1 [] (1 / 6 : ℚ) true true) rfl rfl⟩

/-- Invariant of `gbp_loop` once a best score/position pair is held: the
result is either the held position (when no later legal child beats the
held score) or the first position of the maximal later legal child that
strictly beats it. -/
theorem gbp_loop_some (cs : List BoardTreeNode) : ∀ (pos : Nat) (s : ℚ) (p : Nat),
    ∃ q, BoardTreeNode.gbp_loop cs pos (some s) (some p) = some q
      ∧ ((q = p ∧ ∀ i c, cs.get? i = some c → c.legal = true → c.score ≤ s)
        ∨ (∃ i c, cs.get? i = some c ∧ c.legal = true ∧ q = pos + i ∧ s < c.score
            ∧ (∀ j d, cs.get? j = some d → d.legal = true → d.score ≤ c.score)
            ∧ (∀ j d, j < i → cs.get? j = some d → d.legal = true →
                d.score < c.score))) := by
  induction cs with
  | nil =>
    intro pos s p
    refine ⟨p, rfl, Or.inl ⟨rfl, ?_⟩⟩
    intro i c h
    exact Option.noConfusion h
  | cons c rest ih =>
    intro pos s p
    have hstep : BoardTreeNode.gbp_loop (c :: rest) pos (some s) (some p)
        = (if (c.legal && decide (s < c.score)) = true
           then BoardTreeNode.gbp_loop rest (pos + 1) (some c.score) (some pos)
           else BoardTreeNode.gbp_loop rest (pos + 1) (some s) (some p)) := rfl
    by_cases hcl : c.legal = true
    · by_cases hss : s < c.score
      · have hcond : (c.legal && decide (s < c.score)) = true := by
          simp [hcl, hss]
        obtain ⟨q, hq, hcase⟩ := ih (pos + 1) c.score pos
        refine ⟨q, ?_, ?_⟩
        · rw [hstep, if_pos hcond]
          exact hq
        · rcases hcase with ⟨hqp, hall⟩ | ⟨i2, c2, hg2, hl2, hq2, hs2, hmax2, hfirst2⟩
          · refine Or.inr ⟨0, c, List.get?_cons_zero, hcl, by omega, hss, ?_, ?_⟩
            · intro j d hj hld
              cases j with
              | zero =>
                rw [List.get?_cons_zero] at hj
                injection hj with hj2
                rw [hj2]
              | succ j2 =>
                rw [List.get?_cons_succ] at hj
                exact hall j2 d hj hld
            · intro j d hj
              omega
          · refine Or.inr ⟨i2 + 1, c2, by rw [List.get?_cons_succ]; exact hg2, hl2,
              by omega, lt_trans hss hs2, ?_, ?_⟩
            · intro j d hj hld
              cases j with
              | zero =>
                rw [List.get?_cons_zero] at hj
                injection hj with hj2
                rw [← hj2]
                exact le_of_lt hs2
              | succ j2 =>
                rw [List.get?_cons_succ] at hj
                exact hmax2 j2 d hj hld
            · intro j d hj hg hld
              cases j with
              | zero =>
                rw [List.get?_cons_zero] at hg
                injection hg with hg2
                rw [← hg2]
                exact hs2
              | succ j2 =>
                rw [List.get?_cons_succ] at hg
                exact hfirst2 j2 d (by omega) hg hld
      · have hcond : ¬((c.legal && decide (s < c.score)) = true) := by
          simp [hss]
        obtain ⟨q, hq, hcase⟩ := ih (pos + 1) s p
        refine ⟨q, ?_, ?_⟩
        · rw [hstep, if_neg hcond]
          exact hq
        · rcases hcase with ⟨hqp, hall⟩ | ⟨i2, c2, hg2, hl2, hq2, hs2, hmax2, hfirst2⟩
          · refine Or.inl ⟨hqp, ?_⟩
            intro i d hi hld
            cases i with
            | zero =>
              rw [List.get?_cons_zero] at hi
              injection hi with hi2
              rw [← hi2]
              exact le_of_not_lt hss
            | succ i2 =>
              rw [List.get?_cons_succ] at hi
              exact hall i2 d hi hld
          · refine Or.inr ⟨i2 + 1, c2, by rw [List.get?_cons_succ]; exact hg2, hl2,
              by omega, hs2, ?_, ?_⟩
            · intro j d hj hld
              cases j with
              | zero =>
                rw [List.get?_cons_zero] at hj
                injection hj with hj2
                rw [← hj2]
                exact le_of_lt (lt_of_le_of_lt (le_of_not_lt hss) hs2)
              | succ j2 =>
                rw [List.get?_cons_succ] at hj
                exact hmax2 j2 d hj hld
            · intro j d hj hg hld
              cases j with
              | zero =>
                rw [List.get?_cons_zero] at hg
                injection hg with hg2
                rw [← hg2]
                exact lt_of_le_of_lt (le_of_not_lt hss) hs2
              | succ j2 =>
                rw [List.get?_cons_succ] at hg
                exact hfirst2 j2 d (by omega) hg hld
    · have hclf : c.legal = false := by
        revert hcl
        cases c.legal <;> simp
      have hcond : ¬((c.legal && decide (s < c.score)) = true) := by
        simp [hclf]
      obtain ⟨q, hq, hcase⟩ := ih (pos + 1) s p
      refine ⟨q, ?_, ?_⟩
      · rw [hstep, if_neg hcond]
        exact hq
      · rcases hcase with ⟨hqp, hall⟩ | ⟨i2, c2, hg2, hl2, hq2, hs2, hmax2, hfirst2⟩
        · refine Or.inl ⟨hqp, ?_⟩
          intro i d hi hld
          cases i with
          | zero =>
            rw [List.get?_cons_zero] at hi
            injection hi with hi2
            rw [← hi2] at hld
            rw [hclf] at hld
            exact Bool.noConfusion hld
          | succ i2 =>
            rw [List.get?_cons_succ] at hi
            exact hall i2 d hi hld
        · refine Or.inr ⟨i2 + 1, c2, by rw [List.get?_cons_succ]; exact hg2, hl2,
            by omega, hs2, ?_, ?_⟩
          · intro j d hj hld
            cases j with
            | zero =>
              rw [List.get?_cons_zero] at hj
              injection hj with hj2
              rw [← hj2] at hld
              rw [hclf] at hld
              exact Bool.noConfusion hld
            | succ j2 =>
              rw [List.get?_cons_succ] at hj
              exact hmax2 j2 d hj hld
          · intro j d hj hg hld
            cases j with
            | zero =>
              rw [List.get?_cons_zero] at hg
              injection hg with hg2
              rw [← hg2] at hld
              rw [hclf] at hld
              exact Bool.noConfusion hld
            | succ j2 =>
              rw [List.get?_cons_succ] at hg
              exact hfirst2 j2 d (by omega) hg hld

/-- Behaviour of `gbp_loop` from the empty accumulator: `none` when no child
is legal, otherwise the position of the first maximal legal child. -/
theorem gbp_loop_none (cs : List BoardTreeNode) : ∀ pos : Nat,
    (BoardTreeNode.gbp_loop cs pos none none = none
      ∧ ∀ i c, cs.get? i = some c → c.legal = false)
    ∨ (∃ i c, cs.get? i = some c ∧ c.legal = true
        ∧ BoardTreeNode.gbp_loop cs pos none none = some (pos + i)
        ∧ (∀ j d, cs.get? j = some d → d.legal = true → d.score ≤ c.score)
        ∧ (∀ j d, j < i → cs.get? j = some d → d.legal = true →
            d.score < c.score)) := by
  induction cs with
  | nil =>
    intro pos
    exact Or.inl ⟨rfl, fun i c h => Option.noConfusion h⟩
  | cons c rest ih =>
    intro pos
    have hstep : BoardTreeNode.gbp_loop (c :: rest) pos none none
        = (if (c.legal && true) = true
           then BoardTreeNode.gbp_loop rest (pos + 1) (some c.score) (some pos)
           else BoardTreeNode.gbp_loop rest (pos + 1) none none) := rfl
    by_cases hcl : c.legal = true
    · have hcond : (c.legal && true) = true := by simp [hcl]
      obtain ⟨q, hq, hcase⟩ := gbp_loop_some rest (pos + 1) c.score pos
      have hres : BoardTreeNode.gbp_loop (c :: rest) pos none none = some q := by
        rw [hstep, if_pos hcond]
        exact hq
      rcases hcase with ⟨hqp, hall⟩ | ⟨i2, c2, hg2, hl2, hq2, hs2, hmax2, hfirst2⟩
      · refine Or.inr ⟨0, c, List.get?_cons_zero, hcl, ?_, ?_, ?_⟩
        · rw [hres, hqp]
          exact congrArg some (by omega)
        · intro j d hj hld
          cases j with
          | zero =>
            rw [List.get?_cons_zero] at hj
            injection hj with hj2
            rw [hj2]
          | succ j2 =>
            rw [List.get?_cons_succ] at hj
            exact hall j2 d hj hld
        · intro j d hj
          omega
      · refine Or.inr ⟨i2 + 1, c2, by rw [List.get?_cons_succ]; exact hg2, hl2, ?_, ?_, ?_⟩
        · rw [hres, hq2]
          congr 1
          omega
        · intro j d hj hld
          cases j with
          | zero =>
            rw [List.get?_cons_zero] at hj
            injection hj with hj2
            rw [← hj2]
            exact le_of_lt hs2
          | succ j2 =>
            rw [List.get?_cons_succ] at hj
            exact hmax2 j2 d hj hld
        · intro j d hj hg hld
          cases j with
          | zero =>
            rw [List.get?_cons_zero] at hg
            injection hg with hg2
            rw [← hg2]
            exact hs2
          | succ j2 =>
            rw [List.get?_cons_succ] at hg
            exact hfirst2 j2 d (by omega) hg hld
    · have hclf : c.legal = false := by
        revert hcl
        cases c.legal <;> simp
      have hcond : ¬((c.legal && true) = true) := by simp [hclf]
      have hres : BoardTreeNode.gbp_loop (c :: rest) pos none none
          = BoardTreeNode.gbp_loop rest (pos + 1) none none := by
        rw [hstep, if_neg hcond]
      rcases ih (pos + 1) with ⟨hr, hall⟩ | ⟨i2, c2, hg2, hl2, hr2, hmax2, hfirst2⟩
      · refine Or.inl ⟨by rw [hres]; exact hr, ?_⟩
        intro i d hi
        cases i with
        | zero =>
          rw [List.get?_cons_zero] at hi
          injection hi with hi2
          rw [← hi2]
          exact hclf
        | succ i2 =>
          rw [List.get?_cons_succ] at hi
          exact hall i2 d hi
      · refine Or.inr ⟨i2 + 1, c2, by rw [List.get?_cons_succ]; exact hg2, hl2, ?_, ?_, ?_⟩
        · rw [hres, hr2]
          congr 1
          omega
        · intro j d hj hld
          cases j with
          | zero =>
            rw [List.get?_cons_zero] at hj
            injection hj with hj2
            rw [← hj2] at hld
            rw [hclf] at hld
            exact Bool.noConfusion hld
          | succ j2 =>
            rw [List.get?_cons_succ] at hj
            exact hmax2 j2 d hj hld
        · intro j d hj hg hld
          cases j with
          | zero =>
            rw [List.get?_cons_zero] at hg
            injection hg with hg2
            rw [← hg2] at hld
            rw [hclf] at hld
            exact Bool.noConfusion hld
          | succ j2 =>
            rw [List.get?_cons_succ] at hg
            exact hfirst2 j2 d (by omega) hg hld

/-- C6: `get_best_pos` considers only legal children; it returns the index
of the highest-scoring legal child, ties broken by first occurrence in
column order (every earlier legal child scores strictly less), and returns
0 whenever no legal child exists — in particular on a node with zero
children. It is a total function, so it never raises. -/
theorem get_best_pos_spec (n : BoardTreeNode) :
    ((∀ i c, n.children.get? i = some c → c.legal = false) → n.get_best_pos = 0)
    ∧ ((∃ i c, n.children.get? i = some c ∧ c.legal = true) →
        ∃ c, n.children.get? n.get_best_pos = some c ∧ c.legal = true
          ∧ (∀ j d, n.children.get? j = some d → d.legal = true → d.score ≤ c.score)
          ∧ (∀ j d, j < n.get_best_pos → n.children.get? j = some d →
              d.legal = true → d.score < c.score)) := by
  rcases gbp_loop_none n.children 0 with ⟨hr, hall⟩ | ⟨i, c, hg, hl, hr, hmax, hfirst⟩
  · constructor
    · intro _
      unfold BoardTreeNode.get_best_pos
      rw [hr]
      rfl
    · intro hex
      obtain ⟨i, c, hg, hlc⟩ := hex
      exfalso
      have hx := hall i c hg
      rw [hlc] at hx
      exact Bool.noConfusion hx
  · have hbp : n.get_best_pos = i := by
      unfold BoardTreeNode.get_best_pos
      rw [hr]
      simp
    constructor
    · intro hnone
      exfalso
      have hx := hnone i c hg
      rw [hl] at hx
      exact Bool.noConfusion hx
    · intro _
      rw [hbp]
      exact ⟨c, hg, hl, hmax, hfirst⟩

/-- Witness for C6: a node whose three children are an illegal high scorer
and two legal children tied at the top score selects index 1; a node with
zero children selects 0. -/
theorem get_best_pos_spec_witness :
    c6_empty.get_best_pos = 0
    ∧ ∃ c, c6_node.children.get? c6_node.get_best_pos = some c ∧ c.legal = true :=
  ⟨(get_best_pos_spec c6_empty).1 (fun i c h => Option.noConfusion h),
   match (get_best_pos_spec c6_node).2
       ⟨1, BoardTreeNode.mk (Board.init 4 7 6) 2 [] (1 / 6 : ℚ) false true, rfl, rfl⟩ with
   | ⟨c, hg, hl, _, _⟩ => ⟨c, hg, hl⟩⟩

theorem hIn_board_bounds (hb : HBoard) (pos : ℤ) (σx : Heap)
    (h : hIn_board hb pos σx = true) : 0 ≤ pos ∧ pos.toNat < hb.width := by
  unfold hIn_board at h
  rw [Bool.and_eq_true] at h
  have h2 := of_decide_eq_true h.1
  omega

theorem heap_read_append (σ : Heap) (τ : Heap) (a : Nat) (h : a < σ.size) :
    Heap.read (σ ++ τ) a = σ.read a := by
  unfold Heap.read Heap.size at *
  exact List.getD_append σ τ [] a h

theorem heap_read_write_ne (σ : Heap) (a1 : Nat) (a2 : Nat) (v : List Player)
    (h : a1 ≠ a2) : (σ.write a1 v).read a2 = σ.read a2 := by
  unfold Heap.read Heap.write
  rw [List.getD_eq_getD_get?, List.getD_eq_getD_get?, List.get?_set_ne _ _ h]

/-- One step of `hInsert_piece`, projected to the heap. -/
theorem hInsert_piece_heap (hb : HBoard) (pos : ℤ) (σx : Heap) :
    (hInsert_piece hb pos σx).2.2
      = (if hIn_board hb pos σx = true
         then σx.write (hb.cols.getD pos.toNat 0)
                (Heap.read σx (hb.cols.getD pos.toNat 0) ++ [hb.turn])
         else σx) := by
  unfold hInsert_piece
  split <;> rfl

/-- C7: in the heap model, `copy` allocates fresh column cells disjoint from
the original's, the copy observes the same column contents the original
does, copying leaves the original's view intact, a placement on the copy
leaves the original's columns (hence its piece counts) unchanged, and a
placement on the original leaves the copy's columns unchanged. The
`history` field is an immutable value carried on each board record, so no
operation on one board can change the other's history. -/
theorem copy_structural_independence (b : HBoard) (σ : Heap) (pos : ℤ)
    (hv : ∀ a ∈ b.cols, a < σ.size)
    (hlen : b.cols.length = b.width) :
    (∀ a1 ∈ (hCopy b σ).1.cols, ∀ a2 ∈ b.cols, a1 ≠ a2)
    ∧ hColumns (hCopy b σ).1 (hCopy b σ).2 = hColumns b σ
    ∧ hColumns b (hCopy b σ).2 = hColumns b σ
    ∧ hColumns b (hInsert_piece (hCopy b σ).1 pos (hCopy b σ).2).2.2 = hColumns b σ
    ∧ hColumns (hCopy b σ).1 (hInsert_piece b pos (hCopy b σ).2).2.2
        = hColumns (hCopy b σ).1 (hCopy b σ).2 := by
  have hσ1size : ((σ ++ List.replicate b.width ([] : List Player)) : Heap).size
      = σ.size + b.width := by
    unfold Heap.size
    rw [List.length_append, List.length_replicate]
  have hcols : (hCopy b σ).1.cols
      = (List.range b.cols.length).map
          (fun i => ((σ ++ List.replicate b.width ([] : List Player)) : Heap).size + i) := rfl
  have hheap : (hCopy b σ).2
      = (σ ++ List.replicate b.width ([] : List Player))
        ++ b.cols.map (fun a =>
            (Heap.read (σ ++ List.replicate b.width ([] : List Player)) a).map
              (fun v => v)) := rfl
  have hcopy_lb : ∀ a1 ∈ (hCopy b σ).1.cols, σ.size + b.width ≤ a1 := by
    intro a1 h1
    rw [hcols] at h1
    obtain ⟨i, hi, rfl⟩ := List.mem_map.mp h1
    rw [hσ1size]
    omega
  have hdisj : ∀ a1 ∈ (hCopy b σ).1.cols, ∀ a2 ∈ b.cols, a1 ≠ a2 := by
    intro a1 h1 a2 h2
    have hx1 := hcopy_lb a1 h1
    have hx2 := hv a2 h2
    omega
  have hread2 : ∀ a, a < σ.size → Heap.read (hCopy b σ).2 a = σ.read a := by
    intro a ha
    rw [hheap]
    unfold Heap.read Heap.size at *
    rw [List.append_assoc]
    exact List.getD_append _ _ _ _ ha
  have hcolsb : hColumns b (hCopy b σ).2 = hColumns b σ := by
    unfold hColumns
    apply List.map_eq_map_iff.mpr
    intro a ha
    exact hread2 a (hv a ha)
  have hclen : (hCopy b σ).1.cols.length = b.cols.length := by
    rw [hcols, List.length_map, List.length_range]
  have hccontents : hColumns (hCopy b σ).1 (hCopy b σ).2 = hColumns b σ := by
    unfold hColumns
    apply List.ext
    intro n
    rw [hcols, hheap, List.get?_map, List.get?_map, List.get?_map]
    by_cases hn : n < b.cols.length
    · cases hga : b.cols.get? n with
      | none =>
        rw [List.get?_eq_none] at hga
        omega
      | some a =>
        rw [List.get?_range hn]
        simp only [Option.map_some']
        have hmem : a ∈ b.cols := List.get?_mem hga
        have hread3 : Heap.read
            ((σ ++ List.replicate b.width ([] : List Player))
              ++ b.cols.map (fun a2 =>
                  (Heap.read (σ ++ List.replicate b.width ([] : List Player)) a2).map
                    (fun v => v)))
            (((σ ++ List.replicate b.width ([] : List Player)) : Heap).size + n)
            = σ.read a := by
          unfold Heap.read Heap.size at *
          rw [List.getD_append_right]
          · have harith : (σ ++ List.replicate b.width ([] : List Player)).length + n
                - (σ ++ List.replicate b.width ([] : List Player)).length = n := by
              omega
            rw [harith, List.getD_eq_getD_get?, List.get?_map, hga]
            simp only [Option.map_some', Option.getD_some]
            rw [List.map_id']
            exact List.getD_append _ _ _ _ (hv a hmem)
          · omega
        rw [hread3]
    · have hr1 : (List.range b.cols.length).get? n = none := by
        rw [List.get?_eq_none, List.length_range]
        omega
      have hr2 : b.cols.get? n = none := by
        rw [List.get?_eq_none]
        omega
      rw [hr1, hr2]
      rfl
  refine ⟨hdisj, hccontents, hcolsb, ?_, ?_⟩
  · rw [hInsert_piece_heap]
    by_cases hin : hIn_board (hCopy b σ).1 pos (hCopy b σ).2 = true
    · rw [if_pos hin]
      have hb2 := hIn_board_bounds _ pos _ hin
      have hwidth : (hCopy b σ).1.width = b.width := rfl
      have hlt : pos.toNat < (hCopy b σ).1.cols.length := by
        rw [hclen, hlen, ← hwidth]
        exact hb2.2
      have ha0 : (hCopy b σ).1.cols.getD pos.toNat 0 ∈ (hCopy b σ).1.cols := by
        rw [List.getD_eq_getElem _ 0 hlt]
        exact List.getElem_mem hlt
      unfold hColumns
      apply List.map_eq_map_iff.mpr
      intro a ha
      rw [heap_read_write_ne _ _ _ _ (hdisj _ ha0 a ha)]
      exact hread2 a (hv a ha)
    · rw [if_neg hin]
      exact hcolsb
  · rw [hInsert_piece_heap]
    by_cases hin : hIn_board b pos (hCopy b σ).2 = true
    · rw [if_pos hin]
      have hb2 := hIn_board_bounds b pos _ hin
      have hlt : pos.toNat < b.cols.length := by
        rw [hlen]
        exact hb2.2
      have ha0 : b.cols.getD pos.toNat 0 ∈ b.cols := by
        rw [List.getD_eq_getElem _ 0 hlt]
        exact List.getElem_mem hlt
      unfold hColumns
      apply List.map_eq_map_iff.mpr
      intro a ha
      exact heap_read_write_ne _ _ _ _ (Ne.symm (hdisj a ha _ ha0))
    · rw [if_neg hin]

/-- Witness for C7 on a concrete freshly allocated board and heap. -/
theorem copy_structural_independence_witness :
    hColumns c7_hboard
        (hInsert_piece (hCopy c7_hboard c7_heap).1 0 (hCopy c7_hboard c7_heap).2).2.2
      = hColumns c7_hboard c7_heap :=
  (copy_structural_independence c7_hboard c7_heap 0 (by decide) (by decide)).2.2.2.1
